import Mathlib

/-!
Verification of the Structured Annotation Renderer: the comment-rendering
pipeline of the ticket-management web client.  JavaScript strings are
modelled as lists of UTF-16 code units; each regular-expression pass of the
source is transcribed into a small abstract syntax tree and executed by a
backtracking matcher that follows ECMAScript semantics: ordered
alternation, greedy and lazy repetition, leftmost match, global replace.
-/

namespace SAR

/-- JStr models a JavaScript string: a list of UTF-16 code units. -/
abbrev JStr := List Nat

/-- jchar encodes one Unicode scalar value as UTF-16 code units. -/
def jchar (c : Char) : List Nat :=
  if c.toNat < 0x10000 then [c.toNat]
  else [0xD800 + (c.toNat - 0x10000) / 0x400, 0xDC00 + (c.toNat - 0x10000) % 0x400]

/-- jstr encodes a Lean string as a JavaScript UTF-16 string. -/
def jstr (s : String) : JStr := (s.data.map jchar).flatten

/-- toLow lower-cases an ASCII letter code unit; this is the case folding the ignore-case literals of the source need. -/
def toLow (u : Nat) : Nat := if 65 ≤ u ∧ u ≤ 90 then u + 32 else u

/-- lowAll folds the case of a whole string. -/
def lowAll (s : JStr) : JStr := s.map toLow

/-- wsRanges lists the code units of ECMAScript white space, used both by the backslash-s class and by String.trim. -/
def wsRanges : List (Nat × Nat) :=
  [(9, 13), (32, 32), (0xA0, 0xA0), (0x1680, 0x1680), (0x2000, 0x200A),
   (0x2028, 0x2029), (0x202F, 0x202F), (0x205F, 0x205F), (0x3000, 0x3000),
   (0xFEFF, 0xFEFF)]

/-- inRanges tests membership of a code unit in a list of inclusive ranges. -/
def inRanges (rs : List (Nat × Nat)) (u : Nat) : Bool :=
  rs.any (fun p => decide (p.1 ≤ u ∧ u ≤ p.2))

/-- isWS tests ECMAScript white space. -/
def isWS (u : Nat) : Bool := inRanges wsRanges u

/-- trimEnd drops trailing white space. -/
def trimEnd (s : JStr) : JStr := (s.reverse.dropWhile isWS).reverse

/-- trimU models JavaScript String.trim. -/
def trimU (s : JStr) : JStr := trimEnd (s.dropWhile isWS)

/-- isPre p s tests whether p is a leading segment of s; it models the anchored match the source runs on each candidate paragraph. -/
def isPre : JStr → JStr → Bool
  | [], _ => true
  | _ :: _, [] => false
  | u :: p, v :: s => u == v && isPre p s

/-- hasSub p s tests whether p occurs contiguously inside s, as JavaScript String.includes does. -/
def hasSub (p : JStr) : JStr → Bool
  | [] => p.isEmpty
  | u :: rest => isPre p (u :: rest) || hasSub p rest

/-- slice s a b is the segment of s from index a inclusive to b exclusive. -/
def slice (s : JStr) (a b : Nat) : JStr := (s.drop a).take (b - a)

/-- splitNN models JavaScript split on the two-newline separator. -/
def splitNN : JStr → List JStr
  | [] => [[]]
  | 10 :: 10 :: rest => [] :: splitNN rest
  | u :: rest =>
    match splitNN rest with
    | [] => [[u]]
    | p :: ps => (u :: p) :: ps

/-- dropPct removes the first percent sign, as the source percentage string replace with a plain string pattern does. -/
def dropPct : JStr → JStr
  | [] => []
  | u :: rest => if u = 37 then rest else u :: dropPct rest

/-- crGo walks the text keeping at most two code units of any newline run; k counts the newlines just emitted. -/
def crGo : Nat → JStr → JStr
  | _, [] => []
  | k, u :: rest =>
    if u = 10 then
      if 2 ≤ k then crGo k rest else 10 :: crGo (k + 1) rest
    else u :: crGo 0 rest

/-- collapseRuns replaces every run of two or more newlines by exactly two; it is the semantic reading of the blank-line collapse stage. -/
def collapseRuns (s : JStr) : JStr := crGo 0 s

/-- RE is the abstract syntax of the regular expressions the source uses, with ECMAScript matching semantics. -/
inductive RE where
  | eps
  | lit (u : Nat)
  | word (ci : Bool) (w : List Nat)
  | cls (neg : Bool) (rs : List (Nat × Nat))
  | seq (a b : RE)
  | alt (a b : RE)
  | star (lz : Bool) (a : RE)
  | group (n : Nat) (a : RE)
  | look (a : RE)
  | bol (m : Bool)
  | eol (m : Bool)

/-- Caps records capture-group spans, most recent first. -/
abbrev Caps := List (Nat × Nat × Nat)

/-- capGet finds the most recent span recorded for group n. -/
def capGet : Caps → Nat → Option (Nat × Nat)
  | [], _ => none
  | (m, a, b) :: rest, n => if m = n then some (a, b) else capGet rest n

/-- matchWord consumes the literal word w at position i, folding case when ci is set. -/
def matchWord (ci : Bool) : List Nat → JStr → Nat → Option Nat
  | [], _, i => some i
  | u :: w, s, i =>
    match s.get? i with
    | some v => if (if ci then toLow v else v) = u then matchWord ci w s (i + 1) else none
    | none => none

/-- isLineTerm tests the ECMAScript line terminators, which multiline anchors recognise. -/
def isLineTerm (u : Nat) : Bool := u == 10 || u == 13 || u == 0x2028 || u == 0x2029

/-- matsGo enumerates the matches of one regular expression at one position in ECMAScript backtracking priority order; rec continues the iteration of a star. -/
def matsGo (rec : RE → JStr → Nat → Caps → List (Nat × Caps)) :
    RE → JStr → Nat → Caps → List (Nat × Caps)
  | .eps, _, i, cp => [(i, cp)]
  | .lit u, s, i, cp =>
    match s.get? i with
    | some v => if v = u then [(i + 1, cp)] else []
    | none => []
  | .word ci w, s, i, cp =>
    match matchWord ci w s i with
    | some e => [(e, cp)]
    | none => []
  | .cls neg rs, s, i, cp =>
    match s.get? i with
    | some v => if inRanges rs v ≠ neg then [(i + 1, cp)] else []
    | none => []
  | .seq a b, s, i, cp => (matsGo rec a s i cp).flatMap (fun r => matsGo rec b s r.1 r.2)
  | .alt a b, s, i, cp => matsGo rec a s i cp ++ matsGo rec b s i cp
  | .star lz a, s, i, cp =>
    let deeper := (matsGo rec a s i cp).flatMap
      (fun r => if i < r.1 then rec (.star lz a) s r.1 r.2 else [])
    if lz then (i, cp) :: deeper else deeper ++ [(i, cp)]
  | .group n a, s, i, cp => (matsGo rec a s i cp).map (fun r => (r.1, (n, i, r.1) :: r.2))
  | .look a, s, i, cp => if (matsGo rec a s i cp).isEmpty then [] else [(i, cp)]
  | .bol m, s, i, cp =>
    if i = 0 then [(i, cp)]
    else if m then
      match s.get? (i - 1) with
      | some v => if isLineTerm v then [(i, cp)] else []
      | none => []
    else []
  | .eol m, s, i, cp =>
    if i = s.length then [(i, cp)]
    else if m then
      match s.get? i with
      | some v => if isLineTerm v then [(i, cp)] else []
      | none => []
    else []

/-- mats runs the matcher with star-iteration fuel; fuel of at least the remaining length plus one never runs out, because every star iteration consumes input. -/
def mats : Nat → RE → JStr → Nat → Caps → List (Nat × Caps)
  | 0, _, _, _, _ => []
  | f + 1, re, s, i, cp => matsGo (mats f) re s i cp

/-- matchAt returns the highest-priority match of re at position i, as ECMAScript would produce. -/
def matchAt (re : RE) (s : JStr) (i : Nat) : Option (Nat × Caps) :=
  (mats (s.length + 1) re s i []).head?

/-- findGo scans forward for the leftmost position carrying a match. -/
def findGo (re : RE) (s : JStr) : Nat → Nat → Option (Nat × Nat × Caps)
  | 0, _ => none
  | rem + 1, i =>
    match matchAt re s i with
    | some (e, cp) => some (i, e, cp)
    | none => findGo re s rem (i + 1)

/-- findMatch finds the leftmost match at or after position i. -/
def findMatch (re : RE) (s : JStr) (i : Nat) : Option (Nat × Nat × Caps) :=
  findGo re s (s.length + 1 - i) i

/-- TPiece is one piece of a replacement template: a literal or a capture reference. -/
inductive TPiece where
  | litS (w : JStr)
  | ref (n : Nat)

/-- Tmpl is a replacement template. -/
abbrev Tmpl := List TPiece

/-- expandT instantiates a template for one match; an unmatched group expands to the empty string. -/
def expandT (t : Tmpl) (s : JStr) (cp : Caps) : JStr :=
  (t.map (fun p =>
    match p with
    | .litS w => w
    | .ref n =>
      match capGet cp n with
      | some (a, b) => slice s a b
      | none => [])).flatten

/-- replGo performs the global-replace scan from position i with fuel rem; an empty match advances by one unit, as ECMAScript does. -/
def replGo (re : RE) (t : Tmpl) (s : JStr) : Nat → Nat → JStr
  | 0, i => slice s i s.length
  | rem + 1, i =>
    match findMatch re s i with
    | none => slice s i s.length
    | some (st, e, cp) =>
      if st < e then
        slice s i st ++ expandT t s cp ++ replGo re t s rem e
      else
        slice s i st ++ expandT t s cp ++ slice s st (st + 1) ++ replGo re t s rem (st + 1)

/-- replaceAll models JavaScript String.replace with the global flag. -/
def replaceAll (re : RE) (t : Tmpl) (s : JStr) : JStr := replGo re t s (s.length + 1) 0

/-- jsMatch models non-global String.match: the leftmost match with its captures. -/
def jsMatch (re : RE) (s : JStr) : Option (Nat × Nat × Caps) := findMatch re s 0

/-- rseq sequences a list of regular expressions. -/
def rseq (l : List RE) : RE := l.foldr .seq .eps

/-- optG is a greedy optional part. -/
def optG (a : RE) : RE := .alt a .eps

/-- plusG is greedy one-or-more repetition. -/
def plusG (a : RE) : RE := .seq a (.star false a)

/-- upToG is greedy at-most-n repetition. -/
def upToG : Nat → RE → RE
  | 0, _ => .eps
  | n + 1, a => optG (.seq a (upToG n a))

/-- wsCls is the backslash-s class. -/
def wsCls : RE := .cls false wsRanges

/-- wsStar is greedy backslash-s star. -/
def wsStar : RE := .star false wsCls

/-- dotCls is the dot of a regular expression without the s flag: any unit except line terminators. -/
def dotCls : RE := .cls true [(10, 10), (13, 13), (0x2028, 0x2029)]

/-- dotStarLazy is lazy dot star. -/
def dotStarLazy : RE := .star true dotCls

/-- dotStarG is greedy dot star. -/
def dotStarG : RE := .star false dotCls

/-- digitCls is the backslash-d class. -/
def digitCls : RE := .cls false [(48, 57)]

/-- nlOrEnd is the group of a newline or end of input that closes several source patterns. -/
def nlOrEnd : RE := .alt (.lit 10) (.eol false)

/-- startOrNl is the group of start of input or a newline that opens several source patterns. -/
def startOrNl : RE := .alt (.bol false) (.lit 10)

/-- reBanner1 transcribes the source pattern deleting the optionally bold AI Root Cause Analysis banner line, global and ignore-case, replaced by a newline. -/
def reBanner1 : RE :=
  rseq [startOrNl, wsStar, optG (.word false (jstr "**")),
        .word true (jstr "ai root cause analysis"),
        optG (.word false (jstr "**")), wsStar, nlOrEnd]

/-- reBanner2 transcribes the same pattern for the plain Root Cause Analysis banner. -/
def reBanner2 : RE :=
  rseq [startOrNl, wsStar, optG (.word false (jstr "**")),
        .word true (jstr "root cause analysis"),
        optG (.word false (jstr "**")), wsStar, nlOrEnd]

/-- reTrailer1 transcribes the source pattern deleting a dash run followed on the same line by the Analysis method trailer. -/
def reTrailer1 : RE :=
  rseq [.word false (jstr "---"), dotStarLazy, .word true (jstr "analysis method:"),
        dotStarLazy, nlOrEnd]

/-- reTrailer2 transcribes the source pattern deleting any line containing the Analysis method trailer. -/
def reTrailer2 : RE :=
  rseq [dotStarLazy, .word true (jstr "analysis method:"), dotStarLazy, nlOrEnd]

/-- reHr1 transcribes the multiline source pattern deleting a line of three or more dashes surrounded by white space. -/
def reHr1 : RE :=
  rseq [.bol true, wsStar, .word false (jstr "--"), plusG (.lit 45), wsStar, .eol true]

/-- reHr2 transcribes the multiline source pattern deleting any line whose trimmed start is three dashes. -/
def reHr2 : RE :=
  rseq [.bol true, wsStar, .word false (jstr "---"), dotStarG, .eol true]

/-- reBold transcribes the bold-span pattern with its lazy capture. -/
def reBold : RE :=
  rseq [.word false (jstr "**"), .group 1 dotStarLazy, .word false (jstr "**")]

/-- reHeading transcribes the heading pattern: one to six hash marks, one white-space unit, a lazy capture up to a lookahead of newline or end. -/
def reHeading : RE :=
  rseq [.lit 35, upToG 5 (.lit 35), wsCls, .group 1 dotStarLazy, .look nlOrEnd]

/-- reUl transcribes the multiline unordered-list pattern: line start, white space, a dash or star or plus bullet, one white-space unit, a greedy capture. -/
def reUl : RE :=
  rseq [.bol true, wsStar, .alt (.lit 45) (.alt (.lit 42) (.lit 43)), wsCls,
        .group 1 (plusG dotCls)]

/-- reOl transcribes the multiline ordered-list pattern: line start, white space, captured digits, a dot, one white-space unit, a greedy capture. -/
def reOl : RE :=
  rseq [.bol true, wsStar, .group 1 (plusG digitCls), .lit 46, wsCls,
        .group 2 (plusG dotCls)]

/-- reCode transcribes the inline code-span pattern. -/
def reCode : RE :=
  rseq [.lit 96, .group 1 (plusG (.cls true [(96, 96)])), .lit 96]

/-- reLink transcribes the link pattern, capturing the label and discarding the target. -/
def reLink : RE :=
  rseq [.lit 91, .group 1 (plusG (.cls true [(93, 93)])), .lit 93, .lit 40,
        plusG (.cls true [(41, 41)]), .lit 41]

/-- reCollapse transcribes the blank-run collapse pattern of two or more newlines: two newline literals then greedy repetition of further newlines. -/
def reCollapse : RE := rseq [.word false (jstr "\n\n"), .star false (.lit 10)]

/-- reConf transcribes the non-global ignore-case confidence pattern with its level and percentage captures. -/
def reConf : RE :=
  rseq [startOrNl, wsStar, optG (.word false (jstr "**")),
        .word true (jstr "confidence level"), optG (.lit 58), wsStar,
        .group 1 (.star true (.cls true [(40, 40), (10, 10)])),
        optG (rseq [wsStar, .lit 40, .group 2 (plusG (.cls true [(41, 41)])), .lit 41]),
        nlOrEnd]

/-- reConfRm transcribes the global ignore-case confidence-line removal pattern. -/
def reConfRm : RE :=
  rseq [startOrNl, wsStar, optG (.word false (jstr "**")),
        .word true (jstr "confidence level"), optG (.lit 58),
        dotStarLazy, nlOrEnd]

/-- tmplEmpty is the empty replacement. -/
def tmplEmpty : Tmpl := []

/-- tmplNl replaces a match by one newline. -/
def tmplNl : Tmpl := [.litS (jstr "\n")]

/-- tmplNN replaces a blank run by exactly one blank line. -/
def tmplNN : Tmpl := [.litS (jstr "\n\n")]

/-- tmplStrong wraps the first capture in emphasis markup. -/
def tmplStrong : Tmpl := [.litS (jstr "<strong>"), .ref 1, .litS (jstr "</strong>")]

/-- tmplUl tags an unordered list line with a literal bullet glyph. -/
def tmplUl : Tmpl := [.litS (jstr "<p class=\"mb-2\">• "), .ref 1, .litS (jstr "</p>")]

/-- tmplOl tags an ordered list line keeping its original numeral. -/
def tmplOl : Tmpl :=
  [.litS (jstr "<p class=\"mb-2\">"), .ref 1, .litS (jstr ". "), .ref 2, .litS (jstr "</p>")]

/-- tmplG1 keeps only the first capture. -/
def tmplG1 : Tmpl := [.ref 1]

/-- fixedClassUnits lists the UTF-16 code units of the fixed pictograph character class of the source; the class carries no u flag, so each astral emoji contributes its two surrogate units separately. -/
def fixedClassUnits : List Nat :=
  [0xD83C, 0xDFAF, 0xD83D, 0xDCCB, 0xDD0D, 0xDCA1, 0x2705, 0x274C, 0x26A0, 0xFE0F,
   0xDE80, 0xDCCA, 0xDD27, 0x2B50, 0xD83E, 0xDD16, 0xDFE2, 0xDFE1, 0xDD34]

/-- stripFixed models the first replace of the source: delete every code unit of the fixed class. -/
def stripFixed (s : JStr) : JStr := s.filter (fun u => !(fixedClassUnits.contains u))

/-- emojiCpRanges lists the code-point ranges of the second replace, which carries the u flag. -/
def emojiCpRanges : List (Nat × Nat) :=
  [(0x1F600, 0x1F64F), (0x1F300, 0x1F5FF), (0x1F680, 0x1F6FF),
   (0x1F1E0, 0x1F1FF), (0x2600, 0x26FF), (0x2700, 0x27BF)]

/-- isHighSur tests a high surrogate unit. -/
def isHighSur (u : Nat) : Bool := decide (0xD800 ≤ u ∧ u ≤ 0xDBFF)

/-- isLowSur tests a low surrogate unit. -/
def isLowSur (u : Nat) : Bool := decide (0xDC00 ≤ u ∧ u ≤ 0xDFFF)

/-- surCombine combines a surrogate pair into its code point. -/
def surCombine (u v : Nat) : Nat := 0x10000 + (u - 0xD800) * 0x400 + (v - 0xDC00)

/-- srGo iterates code points with step fuel, pairing surrogates as the u flag does, and deletes those inside the emoji ranges. -/
def srGo : Nat → JStr → JStr
  | _, [] => []
  | 0, s => s
  | _ + 1, [u] =>
    if isHighSur u then [u]
    else if inRanges emojiCpRanges u then [] else [u]
  | f + 1, u :: v :: rest2 =>
    if isHighSur u then
      if isLowSur v then
        if inRanges emojiCpRanges (surCombine u v) then srGo f rest2
        else u :: v :: srGo f rest2
      else
        if inRanges emojiCpRanges u then srGo f (v :: rest2) else u :: srGo f (v :: rest2)
    else
      if inRanges emojiCpRanges u then srGo f (v :: rest2) else u :: srGo f (v :: rest2)

/-- stripRanges models the second replace of the source, which carries the u flag. -/
def stripRanges (s : JStr) : JStr := srGo s.length s

/-- pipeTail applies the twelve replacement stages that follow pictograph stripping, in their exact source order, ending with trim. -/
def pipeTail (t : JStr) : JStr :=
  trimU (replaceAll reCollapse tmplNN
    (replaceAll reLink tmplG1
      (replaceAll reCode tmplG1
        (replaceAll reOl tmplOl
          (replaceAll reUl tmplUl
            (replaceAll reHeading tmplStrong
              (replaceAll reBold tmplStrong
                (replaceAll reHr2 tmplEmpty
                  (replaceAll reHr1 tmplEmpty
                    (replaceAll reTrailer2 tmplEmpty
                      (replaceAll reTrailer1 tmplEmpty
                        (replaceAll reBanner2 tmplNl
                          (replaceAll reBanner1 tmplNl t)))))))))))))

/-- pipe applies pipeline stages one to four of the source in their exact order. -/
def pipe (raw : JStr) : JStr := pipeTail (stripRanges (stripFixed raw))

/-- Confidence holds the captured level and the raw percentage group of the matched confidence line. -/
structure Confidence where
  level : JStr
  percentage : Option JStr
deriving DecidableEq, Repr

/-- pct is the percentage as the source uses it in the display string: the first percent sign removed. -/
def Confidence.pct (c : Confidence) : Option JStr := c.percentage.map dropPct

/-- confidenceOf extracts the confidence from the processed text, as the non-global source match does. -/
def confidenceOf (t : JStr) : Option Confidence :=
  match jsMatch reConf t with
  | none => none
  | some (_, _, cp) =>
    some { level := trimU (match capGet cp 1 with
                           | some (a, b) => slice t a b
                           | none => []),
           percentage := (capGet cp 2).map (fun ab => trimU (slice t ab.1 ab.2)) }

/-- afterConf removes every confidence line when one was matched, as the conditional global replace of the source does. -/
def afterConf (t : JStr) : JStr :=
  match jsMatch reConf t with
  | none => t
  | some _ => replaceAll reConfRm tmplNl t

/-- mb2Tag is the list-item marker the source tests each candidate paragraph against. -/
def mb2Tag : JStr := jstr "<p class=\"mb-2\">"

/-- candidates models the split on blank lines, the trim, the non-empty filter and the list-start filter of the source. -/
def candidates (t : JStr) : List JStr :=
  (((splitNN t).map trimU).filter (fun p => !p.isEmpty)).filter (fun p => !isPre mb2Tag p)

/-- wrapP wraps a prose candidate exactly as the source does. -/
def wrapP (p : JStr) : JStr := jstr "<p class=\"mb-3\">" ++ p ++ jstr "</p>"

/-- blocksOf maps the surviving candidates to their final html fragments. -/
def blocksOf (t : JStr) : List JStr :=
  (candidates t).map (fun p => if hasSub mb2Tag p then p else wrapP p)

/-- renderConf is the confidence the full pipeline extracts from a raw comment body. -/
def renderConf (raw : JStr) : Option Confidence := confidenceOf (pipe raw)

/-- renderBlocks is the list of html block fragments the full pipeline produces from a raw comment body. -/
def renderBlocks (raw : JStr) : List JStr := blocksOf (afterConf (pipe raw))

/-- mainContent joins the block fragments, as the source does before injecting them into the page. -/
def mainContent (raw : JStr) : JStr := (renderBlocks raw).flatten

/-- AuthorInfo mirrors the author record field the page reads. -/
structure AuthorInfo where
  system_user_type : Option JStr
deriving DecidableEq

/-- Comment mirrors the comment record: optional author info and the raw content. -/
structure Comment where
  author_info : Option AuthorInfo
  content : JStr
deriving DecidableEq

/-- isAIAssistantComment transcribes the source predicate with its optional chaining. -/
def isAIAssistantComment (c : Comment) : Bool :=
  match c.author_info with
  | some a => a.system_user_type == some (jstr "ai_assistant")
  | none => false

/-- Displayed is what the page paints for one comment: a rendered document for AI comments, the raw text otherwise. -/
inductive Displayed where
  | rendered (conf : Option Confidence) (blocks : List JStr)
  | rawText (text : JStr)
deriving DecidableEq

/-- displayComment is the page branch: only comments flagged as AI authored go through the renderer. -/
def displayComment (c : Comment) : Displayed :=
  if isAIAssistantComment c then .rendered (renderConf c.content) (renderBlocks c.content)
  else .rawText c.content

/-- tmplLits collects the literal units a template can insert. -/
def tmplLits (t : Tmpl) : JStr :=
  (t.map (fun p => match p with | .litS w => w | .ref _ => [])).flatten

/-- insertedUnits collects every code unit any replacement template or the paragraph wrapper of the pipeline can insert. -/
def insertedUnits : JStr :=
  jstr "\n\n" ++ jstr "<strong></strong>" ++ jstr "<p class=\"mb-2\">• . </p>" ++
  jstr "<p class=\"mb-3\">"

/-- badUnit holds of the code units the first two pipeline stages are meant to delete: the fixed pictograph class and the two basic-plane emoji ranges; the astral ranges cannot survive either, because their high surrogates are members of the fixed class. -/
def badUnit (u : Nat) : Prop :=
  u ∈ fixedClassUnits ∨ (0x2600 ≤ u ∧ u ≤ 0x26FF) ∨ (0x2700 ≤ u ∧ u ≤ 0x27BF)

instance (u : Nat) : Decidable (badUnit u) := by
  unfold badUnit
  infer_instance

/-- mwWord is the folded form in which a word consumed by the matcher occurs in the case-folded input. -/
def mwWord (ci : Bool) (w : List Nat) : List Nat := if ci then w else lowAll w

/-- mustWord computes, when one exists, a word that every match of the expression contains as a contiguous segment of the case-folded input. -/
def mustWord : RE → Option (List Nat)
  | .lit u => some [toLow u]
  | .word ci w => if w.isEmpty then none else some (mwWord ci w)
  | .seq a b =>
    match mustWord a with
    | some w => some w
    | none => mustWord b
  | .group _ a => mustWord a
  | _ => none

/-- mustSet computes, when one exists, a set of folded units such that every match of the expression consumes some input unit folding into the set. -/
def mustSet : RE → Option (List Nat)
  | .lit u => some [toLow u]
  | .alt a b =>
    match mustSet a, mustSet b with
    | some x, some y => some (x ++ y)
    | _, _ => none
  | .seq a b =>
    match mustSet a with
    | some w => some w
    | none => mustSet b
  | .group _ a => mustSet a
  | _ => none

/-- plainUnit holds of code units carrying no markup meaning for the pipeline: a newline, or a printable ASCII unit other than the markup trigger characters hash, star, plus, dash, dot, less-than, left bracket and backtick. -/
def plainUnit (u : Nat) : Prop :=
  u = 10 ∨ (32 ≤ u ∧ u ≤ 126 ∧ u ∉ ([35, 42, 43, 45, 46, 60, 91, 96] : List Nat))

instance (u : Nat) : Decidable (plainUnit u) := by
  unfold plainUnit
  infer_instance

/-- dropNl drops a leading run of newlines. -/
def dropNl (l : JStr) : JStr := l.dropWhile (fun u => u == 10)

/-- trimFilter is the trim and non-empty filter the segmentation applies to the candidate paragraphs. -/
def trimFilter (ls : List JStr) : List JStr :=
  (ls.map trimU).filter (fun p => !p.isEmpty)

/-- segNN is the blank-line segmentation up to the list-tag filter: split, trim, drop empties. -/
def segNN (t : JStr) : List JStr := trimFilter (splitNN t)

/-- Modelled from the spec: emojiPict holds of code points inside the Unicode emoji and pictograph blocks the spec calls the emoji, pictograph and symbol ranges; the repository defines no such predicate, so the total-removal claim is stated against this reading. -/
def emojiPict (u : Nat) : Bool :=
  inRanges [(0x2600, 0x27BF), (0x1F300, 0x1F5FF), (0x1F600, 0x1F64F), (0x1F680, 0x1F6FF),
    (0x1F900, 0x1F9FF), (0x2B00, 0x2BFF), (0x1F1E6, 0x1F1FF), (0x1FA70, 0x1FAFF)] u

theorem mem_slice {s : JStr} {a b u : Nat} (h : u ∈ slice s a b) : u ∈ s :=
  List.drop_subset a s (List.take_subset _ _ h)

theorem mem_dropWhile {p : Nat → Bool} : ∀ {s : JStr} {u : Nat}, u ∈ s.dropWhile p → u ∈ s := by
  intro s
  induction s with
  | nil => intro u h; exact h
  | cons a r ih =>
    intro u h
    rw [List.dropWhile_cons] at h
    by_cases hp : p a = true
    · rw [if_pos hp] at h
      exact List.mem_cons_of_mem _ (ih h)
    · rw [if_neg hp] at h
      exact h

theorem mem_trimEnd {s : JStr} {u : Nat} (h : u ∈ trimEnd s) : u ∈ s := by
  unfold trimEnd at h
  rw [List.mem_reverse] at h
  exact List.mem_reverse.mp (mem_dropWhile h)

theorem mem_trimU {s : JStr} {u : Nat} (h : u ∈ trimU s) : u ∈ s :=
  mem_dropWhile (mem_trimEnd h)

theorem mem_expandT {t : Tmpl} {s : JStr} {cp : Caps} {u : Nat}
    (h : u ∈ expandT t s cp) : u ∈ s ∨ u ∈ tmplLits t := by
  unfold expandT at h
  rw [List.mem_flatten] at h
  obtain ⟨l, hl, hu⟩ := h
  rw [List.mem_map] at hl
  obtain ⟨p, hp, rfl⟩ := hl
  cases p with
  | litS w =>
    dsimp only at hu
    refine Or.inr ?_
    unfold tmplLits
    rw [List.mem_flatten]
    exact ⟨w, List.mem_map.mpr ⟨.litS w, hp, rfl⟩, hu⟩
  | ref n =>
    dsimp only at hu
    refine Or.inl ?_
    cases hc : capGet cp n with
    | none => rw [hc] at hu; simp at hu
    | some ab => rw [hc] at hu; exact mem_slice hu

theorem mem_replGo {re : RE} {t : Tmpl} {s : JStr} :
    ∀ {rem i u : Nat}, u ∈ replGo re t s rem i → u ∈ s ∨ u ∈ tmplLits t := by
  intro rem
  induction rem with
  | zero =>
    intro i u h
    exact Or.inl (mem_slice h)
  | succ n ih =>
    intro i u h
    unfold replGo at h
    split at h
    · exact Or.inl (mem_slice h)
    · split at h
      · rcases List.mem_append.mp h with h1 | h2
        · rcases List.mem_append.mp h1 with h3 | h4
          · exact Or.inl (mem_slice h3)
          · exact mem_expandT h4
        · exact ih h2
      · rcases List.mem_append.mp h with h1 | h2
        · rcases List.mem_append.mp h1 with h3 | h4
          · rcases List.mem_append.mp h3 with h5 | h6
            · exact Or.inl (mem_slice h5)
            · exact mem_expandT h6
          · exact Or.inl (mem_slice h4)
        · exact ih h2

theorem mem_replaceAll {re : RE} {t : Tmpl} {s : JStr} {u : Nat}
    (h : u ∈ replaceAll re t s) : u ∈ s ∨ u ∈ tmplLits t :=
  mem_replGo h

theorem mem_stripFixed {s : JStr} {u : Nat} (h : u ∈ stripFixed s) : u ∈ s :=
  List.mem_of_mem_filter h

theorem stripFixed_not_fixed {s : JStr} {u : Nat} (h : u ∈ stripFixed s) :
    u ∉ fixedClassUnits := by
  have h2 := List.of_mem_filter h
  simpa using h2

theorem mem_srGo : ∀ {f : Nat} {s : JStr} {u : Nat}, u ∈ srGo f s → u ∈ s := by
  intro f
  induction f with
  | zero =>
    intro s u h
    cases s with
    | nil => exact h
    | cons a r => exact h
  | succ n ih =>
    intro s u h
    cases s with
    | nil => exact h
    | cons a rest =>
      cases rest with
      | nil =>
        unfold srGo at h
        split at h
        · exact h
        · split at h
          · cases h
          · exact h
      | cons v rest2 =>
        unfold srGo at h
        split at h
        · split at h
          · split at h
            · exact List.mem_cons_of_mem _ (List.mem_cons_of_mem _ (ih h))
            · simp only [List.mem_cons] at h ⊢
              rcases h with h | h | h
              · exact Or.inl h
              · exact Or.inr (Or.inl h)
              · exact Or.inr (Or.inr (ih h))
          · split at h
            · exact List.mem_cons_of_mem _ (ih h)
            · simp only [List.mem_cons] at h ⊢
              rcases h with h | h
              · exact Or.inl h
              · rcases List.mem_cons.mp (ih h) with h2 | h2
                · exact Or.inr (Or.inl h2)
                · exact Or.inr (Or.inr h2)
        · split at h
          · exact List.mem_cons_of_mem _ (ih h)
          · simp only [List.mem_cons] at h ⊢
            rcases h with h | h
            · exact Or.inl h
            · rcases List.mem_cons.mp (ih h) with h2 | h2
              · exact Or.inr (Or.inl h2)
              · exact Or.inr (Or.inr h2)

theorem mem_stripRanges {s : JStr} {u : Nat} (h : u ∈ stripRanges s) : u ∈ s :=
  mem_srGo h

theorem inRanges_of_bmp {u : Nat}
    (h : (0x2600 ≤ u ∧ u ≤ 0x26FF) ∨ (0x2700 ≤ u ∧ u ≤ 0x27BF)) :
    inRanges emojiCpRanges u = true := by
  simp only [inRanges, emojiCpRanges, List.any_cons, List.any_nil, Bool.or_eq_true,
    decide_eq_true_eq]
  omega

theorem srGo_no_bmp :
    ∀ {f : Nat} {s : JStr}, s.length ≤ f → ∀ {u : Nat}, u ∈ srGo f s →
      ¬((0x2600 ≤ u ∧ u ≤ 0x26FF) ∨ (0x2700 ≤ u ∧ u ≤ 0x27BF)) := by
  intro f
  induction f with
  | zero =>
    intro s hlen u h
    rw [List.length_eq_zero.mp (Nat.le_zero.mp hlen)] at h
    cases h
  | succ n ih =>
    intro s hlen u h hbad
    cases s with
    | nil => cases h
    | cons a rest =>
      cases rest with
      | nil =>
        unfold srGo at h
        split at h
        · simp only [List.mem_cons, List.not_mem_nil, or_false] at h
          rename_i hh
          unfold isHighSur at hh
          rw [decide_eq_true_eq] at hh
          omega
        · split at h
          · cases h
          · simp only [List.mem_cons, List.not_mem_nil, or_false] at h
            rename_i hr
            subst h
            exact hr (inRanges_of_bmp hbad)
      | cons v rest2 =>
        unfold srGo at h
        split at h
        · split at h
          · split at h
            · exact ih (by simp at hlen ⊢; omega) h hbad
            · simp only [List.mem_cons] at h
              rcases h with h | h | h
              · rename_i hh hl hr
                unfold isHighSur at hh
                rw [decide_eq_true_eq] at hh
                omega
              · rename_i hh hl hr
                unfold isLowSur at hl
                rw [decide_eq_true_eq] at hl
                omega
              · exact ih (by simp at hlen ⊢; omega) h hbad
          · split at h
            · exact ih (by simp at hlen ⊢; omega) h hbad
            · simp only [List.mem_cons] at h
              rcases h with h | h
              · rename_i hh hl hr
                unfold isHighSur at hh
                rw [decide_eq_true_eq] at hh
                omega
              · exact ih (by simp at hlen ⊢; omega) h hbad
        · split at h
          · exact ih (by simp at hlen ⊢; omega) h hbad
          · simp only [List.mem_cons] at h
            rcases h with h | h
            · rename_i hh hr
              subst h
              exact hr (inRanges_of_bmp hbad)
            · exact ih (by simp at hlen ⊢; omega) h hbad

theorem stripRanges_no_bmp {s : JStr} {u : Nat} (h : u ∈ stripRanges s) :
    ¬((0x2600 ≤ u ∧ u ≤ 0x26FF) ∨ (0x2700 ≤ u ∧ u ≤ 0x27BF)) :=
  srGo_no_bmp (Nat.le_refl _) h

theorem splitNN_cons_eq {u : Nat} {rest : JStr}
    (hg : ∀ r2 : List Nat, u = 10 → rest = 10 :: r2 → False)
    {p : JStr} {ps : List JStr} (hps : splitNN rest = p :: ps) :
    splitNN (u :: rest) = (u :: p) :: ps := by
  unfold splitNN
  split
  · rename_i h2
    cases h2
  · rename_i r2 h2
    injection h2 with ha hb
    exact (hg r2 ha hb).elim
  · rename_i v r h2 hne
    injection hne with hv hr
    subst hv
    subst hr
    rw [hps]

theorem splitNN_ne_nil : ∀ (s : JStr), splitNN s ≠ [] := by
  intro s
  induction s using splitNN.induct with
  | case1 => simp [splitNN]
  | case2 rest ih => simp [splitNN]
  | case3 u rest hg hnil ih => exact (ih hnil).elim
  | case4 u rest hg p ps hps ih =>
    rw [splitNN_cons_eq hg hps]
    simp

theorem splitNN_sub : ∀ (s : JStr), ∀ p ∈ splitNN s, ∀ u ∈ p, u ∈ s := by
  intro s
  induction s using splitNN.induct with
  | case1 =>
    intro p hp u hu
    simp only [splitNN, List.mem_singleton] at hp
    subst hp
    cases hu
  | case2 rest ih =>
    intro p hp u hu
    rw [show splitNN (10 :: 10 :: rest) = [] :: splitNN rest from rfl] at hp
    rcases List.mem_cons.mp hp with h | h
    · subst h
      cases hu
    · exact List.mem_cons_of_mem _ (List.mem_cons_of_mem _ (ih p h u hu))
  | case3 u rest hg hnil ih => exact (splitNN_ne_nil rest hnil).elim
  | case4 v rest hg p ps hps ih =>
    intro q hq w hw
    rw [splitNN_cons_eq hg hps] at hq
    rcases List.mem_cons.mp hq with h | h
    · subst h
      rcases List.mem_cons.mp hw with h2 | h2
      · subst h2
        exact List.mem_cons_self _ _
      · exact List.mem_cons_of_mem _ (ih p (hps ▸ List.mem_cons_self _ _) w h2)
    · exact List.mem_cons_of_mem _ (ih q (hps ▸ List.mem_cons_of_mem _ h) w hw)

theorem mem_candidates_sub {t : JStr} {p : JStr} (hp : p ∈ candidates t) {u : Nat}
    (hu : u ∈ p) : u ∈ t := by
  unfold candidates at hp
  have h1 := List.mem_of_mem_filter hp
  have h2 := List.mem_of_mem_filter h1
  rw [List.mem_map] at h2
  obtain ⟨q, hq, rfl⟩ := h2
  exact splitNN_sub t q hq u (mem_trimU hu)

theorem mem_blocksOf {t : JStr} {b : JStr} (hb : b ∈ blocksOf t) {u : Nat} (hu : u ∈ b) :
    u ∈ t ∨ u ∈ insertedUnits := by
  unfold blocksOf at hb
  rw [List.mem_map] at hb
  obtain ⟨p, hp, rfl⟩ := hb
  by_cases hs : hasSub mb2Tag p = true
  · rw [if_pos hs] at hu
    exact Or.inl (mem_candidates_sub hp hu)
  · rw [if_neg hs] at hu
    unfold wrapP at hu
    rcases List.mem_append.mp hu with h1 | h2
    · rcases List.mem_append.mp h1 with h3 | h4
      · refine Or.inr ?_
        have hsub : ∀ x ∈ jstr "<p class=\"mb-3\">", x ∈ insertedUnits := by decide
        exact hsub u h3
      · exact Or.inl (mem_candidates_sub hp h4)
    · refine Or.inr ?_
      have hsub : ∀ x ∈ jstr "</p>", x ∈ insertedUnits := by decide
      exact hsub u h2

theorem step_sub {re : RE} {tp : Tmpl} {s : JStr} {u : Nat}
    (hs : ∀ x ∈ tmplLits tp, x ∈ insertedUnits)
    (h : u ∈ replaceAll re tp s) : u ∈ s ∨ u ∈ insertedUnits :=
  (mem_replaceAll h).imp_right (hs u)

theorem mem_pipeTail {t : JStr} {u : Nat} (h0 : u ∈ pipeTail t) :
    u ∈ t ∨ u ∈ insertedUnits := by
  unfold pipeTail at h0
  have h1 := mem_trimU h0
  have hNN : ∀ x ∈ tmplLits tmplNN, x ∈ insertedUnits := by decide
  have hG1 : ∀ x ∈ tmplLits tmplG1, x ∈ insertedUnits := by decide
  have hOl : ∀ x ∈ tmplLits tmplOl, x ∈ insertedUnits := by decide
  have hUl : ∀ x ∈ tmplLits tmplUl, x ∈ insertedUnits := by decide
  have hStrong : ∀ x ∈ tmplLits tmplStrong, x ∈ insertedUnits := by decide
  have hEmpty : ∀ x ∈ tmplLits tmplEmpty, x ∈ insertedUnits := by decide
  have hNl : ∀ x ∈ tmplLits tmplNl, x ∈ insertedUnits := by decide
  exact (step_sub hNN h1).elim (fun h => (step_sub hG1 h).elim (fun h =>
    (step_sub hG1 h).elim (fun h => (step_sub hOl h).elim (fun h =>
    (step_sub hUl h).elim (fun h => (step_sub hStrong h).elim (fun h =>
    (step_sub hStrong h).elim (fun h => (step_sub hEmpty h).elim (fun h =>
    (step_sub hEmpty h).elim (fun h => (step_sub hEmpty h).elim (fun h =>
    (step_sub hEmpty h).elim (fun h => (step_sub hNl h).elim (fun h =>
    (step_sub hNl h).elim Or.inl Or.inr) Or.inr) Or.inr) Or.inr) Or.inr) Or.inr)
    Or.inr) Or.inr) Or.inr) Or.inr) Or.inr) Or.inr) Or.inr

theorem mem_afterConf {t : JStr} {u : Nat} (h : u ∈ afterConf t) :
    u ∈ t ∨ u ∈ insertedUnits := by
  unfold afterConf at h
  split at h
  · exact Or.inl h
  · have hNl : ∀ x ∈ tmplLits tmplNl, x ∈ insertedUnits := by decide
    exact step_sub hNl h

theorem renderBlocks_units {raw : JStr} {b : JStr} (hb : b ∈ renderBlocks raw) {u : Nat}
    (hu : u ∈ b) : u ∈ raw ∨ u ∈ insertedUnits := by
  unfold renderBlocks at hb
  rcases mem_blocksOf hb hu with h | h
  · rcases mem_afterConf h with h2 | h2
    · unfold pipe at h2
      rcases mem_pipeTail h2 with h3 | h3
      · exact Or.inl (mem_stripFixed (mem_stripRanges h3))
      · exact Or.inr h3
    · exact Or.inr h2
  · exact Or.inr h


theorem hasSub_nil_left : ∀ (l : JStr), hasSub [] l = true := by
  intro l
  cases l with
  | nil => rfl
  | cons a r => rfl

theorem isPre_nil_right {p : JStr} (h : isPre p [] = true) : p = [] := by
  cases p with
  | nil => rfl
  | cons a r => cases h

theorem hasSub_of_isPre {p l : JStr} (h : isPre p l = true) : hasSub p l = true := by
  cases l with
  | nil =>
    rw [isPre_nil_right h]
    rfl
  | cons a r =>
    unfold hasSub
    rw [h]
    rfl

theorem isPre_hasSub_drop : ∀ {i : Nat} {l p : JStr}, isPre p (l.drop i) = true →
    hasSub p l = true := by
  intro i
  induction i with
  | zero => intro l p h; exact hasSub_of_isPre h
  | succ n ih =>
    intro l p h
    cases l with
    | nil =>
      rw [List.drop_nil] at h
      rw [isPre_nil_right h]
      exact hasSub_nil_left []
    | cons a r =>
      rw [List.drop_succ_cons] at h
      have h2 := ih h
      unfold hasSub
      rw [h2]
      exact Bool.or_true _

theorem get?_drop_cons : ∀ {s : JStr} {i v : Nat}, s.get? i = some v →
    s.drop i = v :: s.drop (i + 1) := by
  intro s
  induction s with
  | nil => intro i v h; simp at h
  | cons a r ih =>
    intro i v h
    cases i with
    | zero =>
      rw [List.get?_cons_zero, Option.some.injEq] at h
      subst h
      rfl
    | succ n =>
      rw [List.get?_cons_succ] at h
      rw [List.drop_succ_cons, List.drop_succ_cons]
      exact ih h

theorem matchWord_isPre : ∀ {w : List Nat} {ci : Bool} {s : JStr} {i e : Nat},
    matchWord ci w s i = some e → isPre (mwWord ci w) ((lowAll s).drop i) = true := by
  intro w
  induction w with
  | nil =>
    intro ci s i e h
    cases ci <;> simp [mwWord, lowAll, isPre]
  | cons u w2 ih =>
    intro ci s i e h
    cases hg : s.get? i with
    | none =>
      unfold matchWord at h
      rw [hg] at h
      cases h
    | some v =>
      have hlow : (lowAll s).get? i = some (toLow v) := by
        unfold lowAll
        rw [List.get?_map, hg]
        rfl
      cases ci with
      | true =>
        unfold matchWord at h
        rw [hg] at h
        simp only [reduceIte] at h
        by_cases hc : toLow v = u
        · rw [if_pos hc] at h
          have htail := ih h
          simp only [mwWord, reduceIte] at htail ⊢
          rw [get?_drop_cons hlow]
          unfold isPre
          rw [Bool.and_eq_true]
          exact ⟨by simp [hc], htail⟩
        · rw [if_neg hc] at h
          cases h
      | false =>
        unfold matchWord at h
        rw [hg] at h
        simp only [Bool.false_eq_true, if_false] at h
        by_cases hc : v = u
        · rw [if_pos hc] at h
          have htail := ih h
          simp only [mwWord, Bool.false_eq_true, if_false] at htail ⊢
          rw [get?_drop_cons hlow]
          simp only [lowAll, List.map_cons]
          unfold isPre
          rw [Bool.and_eq_true]
          refine ⟨by simp [hc], ?_⟩
          simp only [lowAll] at htail
          exact htail
        · rw [if_neg hc] at h
          cases h

theorem matsGo_word {rec : RE → JStr → Nat → Caps → List (Nat × Caps)} :
    ∀ (re : RE) {s : JStr} {i : Nat} {cp : Caps} {r : Nat × Caps},
      r ∈ matsGo rec re s i cp → ∀ {w : List Nat}, mustWord re = some w →
        hasSub w (lowAll s) = true := by
  intro re
  induction re with
  | lit u =>
    intro s i cp r hr w hw
    simp only [mustWord, Option.some.injEq] at hw
    subst hw
    unfold matsGo at hr
    cases hg : s.get? i with
    | none => rw [hg] at hr; cases hr
    | some v =>
      rw [hg] at hr
      split at hr
      · rename_i v2 hveq
        injection hveq with hv
        subst hv
        split at hr
        · rename_i hvu
          subst hvu
          have hlow : (lowAll s).get? i = some (toLow v) := by
            unfold lowAll
            rw [List.get?_map, hg]
            rfl
          refine isPre_hasSub_drop (i := i) ?_
          rw [get?_drop_cons hlow]
          simp [isPre]
        · cases hr
      · cases hr
  | word ci w0 =>
    intro s i cp r hr w hw
    simp only [mustWord] at hw
    split at hw
    · cases hw
    · rw [Option.some.injEq] at hw
      subst hw
      unfold matsGo at hr
      cases hm : matchWord ci w0 s i with
      | none => rw [hm] at hr; cases hr
      | some e =>
        exact isPre_hasSub_drop (matchWord_isPre hm)
  | seq a b iha ihb =>
    intro s i cp r hr w hw
    unfold matsGo at hr
    rw [List.mem_flatMap] at hr
    obtain ⟨r1, hr1, hr2⟩ := hr
    simp only [mustWord] at hw
    split at hw
    · rename_i wa hwa
      rw [Option.some.injEq] at hw
      subst hw
      exact iha hr1 hwa
    · exact ihb hr2 hw
  | group n a iha =>
    intro s i cp r hr w hw
    unfold matsGo at hr
    rw [List.mem_map] at hr
    obtain ⟨r0, hr0, _⟩ := hr
    exact iha hr0 hw
  | eps => intro s i cp r hr w hw; cases hw
  | cls neg rs => intro s i cp r hr w hw; cases hw
  | alt a b iha ihb => intro s i cp r hr w hw; cases hw
  | star lz a iha => intro s i cp r hr w hw; cases hw
  | look a iha => intro s i cp r hr w hw; cases hw
  | bol m => intro s i cp r hr w hw; cases hw
  | eol m => intro s i cp r hr w hw; cases hw

theorem mats_word : ∀ {f : Nat} {re : RE} {s : JStr} {i : Nat} {cp : Caps} {r : Nat × Caps},
    r ∈ mats f re s i cp → ∀ {w : List Nat}, mustWord re = some w →
      hasSub w (lowAll s) = true := by
  intro f
  cases f with
  | zero => intro re s i cp r hr w hw; cases hr
  | succ n =>
    intro re s i cp r hr w hw
    exact matsGo_word re hr hw

theorem matsGo_set {rec : RE → JStr → Nat → Caps → List (Nat × Caps)} :
    ∀ (re : RE) {s : JStr} {i : Nat} {cp : Caps} {r : Nat × Caps},
      r ∈ matsGo rec re s i cp → ∀ {ls : List Nat}, mustSet re = some ls →
        ∃ u ∈ s, toLow u ∈ ls := by
  intro re
  induction re with
  | lit u =>
    intro s i cp r hr ls hw
    simp only [mustSet, Option.some.injEq] at hw
    subst hw
    unfold matsGo at hr
    cases hg : s.get? i with
    | none => rw [hg] at hr; cases hr
    | some v =>
      rw [hg] at hr
      split at hr
      · rename_i v2 hveq
        injection hveq with hv
        subst hv
        split at hr
        · rename_i hvu
          subst hvu
          exact ⟨v, List.get?_mem hg, List.mem_singleton.mpr rfl⟩
        · cases hr
      · cases hr
  | alt a b iha ihb =>
    intro s i cp r hr ls hw
    simp only [mustSet] at hw
    split at hw
    · rename_i x y hx hy
      rw [Option.some.injEq] at hw
      subst hw
      unfold matsGo at hr
      rcases List.mem_append.mp hr with h | h
      · obtain ⟨u, hu, hm⟩ := iha h hx
        exact ⟨u, hu, List.mem_append.mpr (Or.inl hm)⟩
      · obtain ⟨u, hu, hm⟩ := ihb h hy
        exact ⟨u, hu, List.mem_append.mpr (Or.inr hm)⟩
    · cases hw
  | seq a b iha ihb =>
    intro s i cp r hr ls hw
    unfold matsGo at hr
    rw [List.mem_flatMap] at hr
    obtain ⟨r1, hr1, hr2⟩ := hr
    simp only [mustSet] at hw
    split at hw
    · rename_i wa hwa
      rw [Option.some.injEq] at hw
      subst hw
      exact iha hr1 hwa
    · exact ihb hr2 hw
  | group n a iha =>
    intro s i cp r hr ls hw
    unfold matsGo at hr
    rw [List.mem_map] at hr
    obtain ⟨r0, hr0, _⟩ := hr
    exact iha hr0 hw
  | eps => intro s i cp r hr ls hw; cases hw
  | word ci w0 => intro s i cp r hr ls hw; cases hw
  | cls neg rs => intro s i cp r hr ls hw; cases hw
  | star lz a iha => intro s i cp r hr ls hw; cases hw
  | look a iha => intro s i cp r hr ls hw; cases hw
  | bol m => intro s i cp r hr ls hw; cases hw
  | eol m => intro s i cp r hr ls hw; cases hw

theorem isPre_decomp : ∀ {p q : JStr}, isPre p q = true → ∃ q2, q = p ++ q2 := by
  intro p
  induction p with
  | nil => intro q h; exact ⟨q, rfl⟩
  | cons a p2 ih =>
    intro q h
    cases q with
    | nil => cases h
    | cons b q2 =>
      unfold isPre at h
      rw [Bool.and_eq_true, beq_iff_eq] at h
      obtain ⟨rfl, h2⟩ := h
      obtain ⟨q3, rfl⟩ := ih h2
      exact ⟨q3, rfl⟩

theorem isPre_append_right : ∀ {p a : JStr} (b : JStr), isPre p a = true →
    isPre p (a ++ b) = true := by
  intro p
  induction p with
  | nil => intro a b h; rfl
  | cons c p2 ih =>
    intro a b h
    cases a with
    | nil => cases h
    | cons d a2 =>
      unfold isPre at h ⊢
      rw [Bool.and_eq_true] at h
      rw [List.cons_append, Bool.and_eq_true]
      exact ⟨h.1, ih b h.2⟩

theorem hasSub_append_left : ∀ {m : JStr} (b : JStr) {p : JStr}, hasSub p m = true →
    hasSub p (m ++ b) = true := by
  intro m
  induction m with
  | nil =>
    intro b p h
    unfold hasSub at h
    rw [List.isEmpty_iff] at h
    subst h
    exact hasSub_nil_left b
  | cons u m2 ih =>
    intro b p h
    unfold hasSub at h
    rw [Bool.or_eq_true] at h
    rw [List.cons_append]
    unfold hasSub
    rw [Bool.or_eq_true]
    rcases h with h | h
    · exact Or.inl (by rw [← List.cons_append]; exact isPre_append_right b h)
    · exact Or.inr (ih b h)

theorem hasSub_append_mid : ∀ (a : JStr) {m : JStr} (b : JStr) {p : JStr},
    hasSub p m = true → hasSub p (a ++ m ++ b) = true := by
  intro a
  induction a with
  | nil => intro m b p h; exact hasSub_append_left b h
  | cons c a2 ih =>
    intro m b p h
    rw [List.cons_append, List.cons_append]
    unfold hasSub
    rw [Bool.or_eq_true]
    exact Or.inr (ih b h)

theorem hasSub_ex : ∀ {s p : JStr}, hasSub p s = true → ∃ i, isPre p (s.drop i) = true := by
  intro s
  induction s with
  | nil =>
    intro p h
    unfold hasSub at h
    rw [List.isEmpty_iff] at h
    subst h
    exact ⟨0, rfl⟩
  | cons u rest ih =>
    intro p h
    unfold hasSub at h
    rw [Bool.or_eq_true] at h
    rcases h with h | h
    · exact ⟨0, h⟩
    · obtain ⟨i, hi⟩ := ih h
      exact ⟨i + 1, by rw [List.drop_succ_cons]; exact hi⟩

theorem hasSub_trans {w2 w1 l : JStr} (h21 : hasSub w2 w1 = true)
    (h1l : hasSub w1 l = true) : hasSub w2 l = true := by
  obtain ⟨j, hj⟩ := hasSub_ex h21
  obtain ⟨i, hi⟩ := hasSub_ex h1l
  obtain ⟨q2, hq2⟩ := isPre_decomp hi
  by_cases hle : j ≤ w1.length
  · refine isPre_hasSub_drop (i := i + j) ?_
    rw [← List.drop_drop, hq2, List.drop_append_eq_append_drop]
    have hz : j - w1.length = 0 := by omega
    rw [hz, List.drop_zero]
    exact isPre_append_right q2 hj
  · rw [List.drop_eq_nil_of_le (by omega)] at hj
    rw [isPre_nil_right hj]
    exact hasSub_nil_left l

theorem isPre_map {f : Nat → Nat} : ∀ {p s : JStr}, isPre p s = true →
    isPre (p.map f) (s.map f) = true := by
  intro p
  induction p with
  | nil => intro s h; rfl
  | cons a p2 ih =>
    intro s h
    cases s with
    | nil => cases h
    | cons b s2 =>
      unfold isPre at h
      rw [Bool.and_eq_true, beq_iff_eq] at h
      obtain ⟨rfl, h2⟩ := h
      rw [List.map_cons, List.map_cons]
      unfold isPre
      rw [Bool.and_eq_true, beq_iff_eq]
      exact ⟨rfl, ih h2⟩

theorem hasSub_map {f : Nat → Nat} {p s : JStr} (h : hasSub p s = true) :
    hasSub (p.map f) (s.map f) = true := by
  obtain ⟨i, hi⟩ := hasSub_ex h
  refine isPre_hasSub_drop (i := i) ?_
  rw [← List.map_drop]
  exact isPre_map hi

theorem hasSub_mem_head {c : Nat} {w l : JStr} (h : hasSub (c :: w) l = true) : c ∈ l := by
  obtain ⟨i, hi⟩ := hasSub_ex h
  obtain ⟨q2, hq2⟩ := isPre_decomp hi
  have : c ∈ l.drop i := by
    rw [hq2]
    exact List.mem_append.mpr (Or.inl (List.mem_cons_self _ _))
  exact List.drop_subset _ _ this

theorem trim_decomp (x : JStr) : ∃ a b, x = a ++ trimU x ++ b := by
  refine ⟨x.takeWhile isWS, ((x.dropWhile isWS).reverse.takeWhile isWS).reverse, ?_⟩
  conv_lhs => rw [← List.takeWhile_append_dropWhile (p := isWS) (l := x)]
  rw [List.append_assoc]
  congr 1
  unfold trimU trimEnd
  conv_lhs => rw [← List.reverse_reverse (x.dropWhile isWS),
    ← List.takeWhile_append_dropWhile (p := isWS) (l := (x.dropWhile isWS).reverse),
    List.reverse_append]

theorem hasSub_of_trim {p x : JStr} (h : hasSub p (trimU x) = true) : hasSub p x = true := by
  obtain ⟨a, b, hab⟩ := trim_decomp x
  rw [hab]
  exact hasSub_append_mid a b h

theorem hasSub_low_of_trim {w x : JStr} (h : hasSub w (lowAll (trimU x)) = true) :
    hasSub w (lowAll x) = true := by
  obtain ⟨a, b, hab⟩ := trim_decomp x
  rw [hab]
  unfold lowAll
  rw [List.map_append, List.map_append]
  exact hasSub_append_mid _ _ h

theorem matchAt_none_of_word {re : RE} {s : JStr} {w : List Nat}
    (hw : mustWord re = some w) (hs : hasSub w (lowAll s) = false) (i : Nat) :
    matchAt re s i = none := by
  unfold matchAt
  rw [List.head?_eq_none_iff, List.eq_nil_iff_forall_not_mem]
  intro r hr
  rw [mats_word hr hw] at hs
  cases hs

theorem matchAt_none_of_set {re : RE} {s : JStr} {ls : List Nat}
    (hw : mustSet re = some ls) (hs : ∀ u ∈ s, toLow u ∉ ls) (i : Nat) :
    matchAt re s i = none := by
  unfold matchAt
  rw [List.head?_eq_none_iff, List.eq_nil_iff_forall_not_mem]
  intro r hr
  cases hf : s.length + 1 with
  | zero => rw [hf] at hr; cases hr
  | succ n =>
    rw [hf] at hr
    obtain ⟨u, hu, hm⟩ := matsGo_set re hr hw
    exact hs u hu hm

theorem findGo_none {re : RE} {s : JStr} (h : ∀ i, matchAt re s i = none) :
    ∀ (rem i : Nat), findGo re s rem i = none := by
  intro rem
  induction rem with
  | zero => intro i; rfl
  | succ n ih =>
    intro i
    unfold findGo
    rw [h i]
    exact ih (i + 1)

theorem slice_zero_len (s : JStr) : slice s 0 s.length = s := by
  unfold slice
  simp

theorem replaceAll_id_of_nomatch {re : RE} {t : Tmpl} {s : JStr}
    (h : ∀ i, matchAt re s i = none) : replaceAll re t s = s := by
  unfold replaceAll replGo
  rw [show findMatch re s 0 = none from findGo_none h _ _]
  exact slice_zero_len s

theorem replaceAll_id_word {re : RE} {t : Tmpl} {s : JStr} {w : List Nat}
    (hw : mustWord re = some w) (hs : hasSub w (lowAll s) = false) :
    replaceAll re t s = s :=
  replaceAll_id_of_nomatch (fun i => matchAt_none_of_word hw hs i)

theorem replaceAll_id_set {re : RE} {t : Tmpl} {s : JStr} {ls : List Nat}
    (hw : mustSet re = some ls) (hs : ∀ u ∈ s, toLow u ∉ ls) :
    replaceAll re t s = s :=
  replaceAll_id_of_nomatch (fun i => matchAt_none_of_set hw hs i)


theorem plain_le {u : Nat} (h : plainUnit u) : u ≤ 126 := by
  rcases h with rfl | ⟨h1, h2, h3⟩
  · omega
  · omega

theorem toLow_inv {u c : Nat} (h : toLow u = c) (hc : c < 97 ∨ 122 < c) : u = c := by
  unfold toLow at h
  split at h <;> omega

theorem plain_not_fixed {u : Nat} (h : plainUnit u) : u ∉ fixedClassUnits := by
  have hb := plain_le h
  intro hm
  have hgt : ∀ x ∈ fixedClassUnits, 126 < x := by decide
  exact absurd (hgt u hm) (by omega)

theorem stripFixed_id {s : JStr} (h : ∀ u ∈ s, u ∉ fixedClassUnits) : stripFixed s = s := by
  unfold stripFixed
  rw [List.filter_eq_self]
  intro a ha
  simpa using h a ha

theorem isHighSur_false_of_le {u : Nat} (h : u ≤ 126) : isHighSur u = false := by
  unfold isHighSur
  rw [decide_eq_false_iff_not]
  omega

theorem inRanges_emoji_false_of_le {u : Nat} (h : u ≤ 126) :
    inRanges emojiCpRanges u = false := by
  rw [Bool.eq_false_iff]
  intro hc
  unfold inRanges at hc
  rw [List.any_eq_true] at hc
  obtain ⟨p, hp, hdec⟩ := hc
  rw [decide_eq_true_eq] at hdec
  have hall : ∀ q ∈ emojiCpRanges, 9728 ≤ q.1 := by decide
  have := hall p hp
  omega

theorem srGo_id : ∀ (f : Nat) (s : JStr), (∀ u ∈ s, u ≤ 126) → srGo f s = s := by
  intro f
  induction f with
  | zero =>
    intro s h
    cases s with
    | nil => rfl
    | cons a r => rfl
  | succ n ih =>
    intro s h
    cases s with
    | nil => rfl
    | cons a rest =>
      have ha := h a (List.mem_cons_self _ _)
      cases rest with
      | nil =>
        unfold srGo
        rw [if_neg (by rw [isHighSur_false_of_le ha]; exact Bool.false_ne_true),
          if_neg (by rw [inRanges_emoji_false_of_le ha]; exact Bool.false_ne_true)]
      | cons v rest2 =>
        unfold srGo
        rw [if_neg (by rw [isHighSur_false_of_le ha]; exact Bool.false_ne_true),
          if_neg (by rw [inRanges_emoji_false_of_le ha]; exact Bool.false_ne_true)]
        rw [ih (v :: rest2) (fun u hu => h u (List.mem_cons_of_mem _ hu))]

theorem stripRanges_id {s : JStr} (h : ∀ u ∈ s, u ≤ 126) : stripRanges s = s := by
  unfold stripRanges
  exact srGo_id _ _ h

theorem dropWhile_head_false {p : Nat → Bool} : ∀ {l : JStr} {u : Nat},
    (l.dropWhile p).head? = some u → p u = false := by
  intro l
  induction l with
  | nil => intro u h; cases h
  | cons a r ih =>
    intro u h
    rw [List.dropWhile_cons] at h
    by_cases hp : p a = true
    · rw [if_pos hp] at h
      exact ih h
    · rw [if_neg hp] at h
      injection h with h2
      subst h2
      exact Bool.not_eq_true _ |>.mp hp

theorem dropWhile_of_head {p : Nat → Bool} {l : JStr}
    (h : ∀ u, l.head? = some u → p u = false) : l.dropWhile p = l := by
  cases l with
  | nil => rfl
  | cons a r =>
    rw [List.dropWhile_cons, if_neg]
    rw [h a rfl]
    exact Bool.false_ne_true

theorem dropWhile_dropWhile {p : Nat → Bool} (l : JStr) :
    (l.dropWhile p).dropWhile p = l.dropWhile p :=
  dropWhile_of_head (fun u hu => dropWhile_head_false hu)

theorem trimEnd_trimEnd (l : JStr) : trimEnd (trimEnd l) = trimEnd l := by
  unfold trimEnd
  rw [List.reverse_reverse, dropWhile_dropWhile]

theorem trimEnd_decomp (d : JStr) : d = trimEnd d ++ (d.reverse.takeWhile isWS).reverse := by
  unfold trimEnd
  conv_lhs => rw [← List.reverse_reverse d,
    ← List.takeWhile_append_dropWhile (p := isWS) (l := d.reverse), List.reverse_append]

theorem trimU_trimU (s : JStr) : trimU (trimU s) = trimU s := by
  unfold trimU
  have hA : (trimEnd (s.dropWhile isWS)).dropWhile isWS = trimEnd (s.dropWhile isWS) := by
    cases he : trimEnd (s.dropWhile isWS) with
    | nil => rfl
    | cons a r =>
      rw [List.dropWhile_cons, if_neg]
      have hd2 := trimEnd_decomp (s.dropWhile isWS)
      rw [he] at hd2
      have hhead : (s.dropWhile isWS).head? = some a := by
        rw [hd2]
        rfl
      rw [dropWhile_head_false hhead]
      exact Bool.false_ne_true
  rw [hA, trimEnd_trimEnd]

theorem isPre_head {c : Nat} {w l : JStr} (h : isPre (c :: w) l = true) : c ∈ l := by
  obtain ⟨q2, hq⟩ := isPre_decomp h
  rw [hq]
  exact List.mem_append.mpr (Or.inl (List.mem_cons_self _ _))

theorem splitNN_single : ∀ (s : JStr), hasSub [10, 10] s = false → splitNN s = [s] := by
  intro s
  induction s using splitNN.induct with
  | case1 => intro h; rfl
  | case2 rest ih =>
    intro h
    exfalso
    unfold hasSub at h
    simp [isPre] at h
  | case3 u rest hg hnil ih =>
    intro h
    exact (splitNN_ne_nil rest hnil).elim
  | case4 u rest hg p ps hps ih =>
    intro h
    unfold hasSub at h
    rw [Bool.or_eq_false_iff] at h
    have := ih h.2
    rw [this] at hps
    injection hps with h1 h2
    subst h1
    subst h2
    exact splitNN_cons_eq hg this

theorem plain_toLow_not_excl {u c : Nat} (h : plainUnit u)
    (hc : c ∈ ([35, 42, 43, 45, 46, 60, 91, 96] : List Nat)) : toLow u ≠ c := by
  intro he
  have hcb : c < 97 := by
    have hall : ∀ x ∈ ([35, 42, 43, 45, 46, 60, 91, 96] : List Nat), x < 97 := by decide
    exact hall c hc
  have hu := toLow_inv he (Or.inl hcb)
  subst hu
  rcases h with h | ⟨h1, h2, h3⟩
  · rw [h] at hc
    exact absurd hc (by decide)
  · exact h3 hc

theorem plain_no_excl_word {x : JStr} (hp : ∀ u ∈ x, plainUnit u) {c : Nat} {w : JStr}
    (hc : c ∈ ([35, 42, 43, 45, 46, 60, 91, 96] : List Nat)) :
    hasSub (c :: w) (lowAll x) = false := by
  rw [Bool.eq_false_iff]
  intro h
  have hcm := hasSub_mem_head h
  obtain ⟨u, hu, htl⟩ := List.mem_map.mp hcm
  exact plain_toLow_not_excl (hp u hu) hc htl

theorem plain_mem_not_excl {x : JStr} (hp : ∀ u ∈ x, plainUnit u) {c : Nat}
    (hc : c ∈ ([35, 42, 43, 45, 46, 60, 91, 96] : List Nat)) : c ∉ x := by
  intro hm
  rcases hp c hm with h | ⟨h1, h2, h3⟩
  · rw [h] at hc
    exact absurd hc (by decide)
  · exact h3 hc

theorem pipe_plain_eq {x : JStr}
    (hplain : ∀ u ∈ x, plainUnit u)
    (hband : hasSub (jstr "root cause analysis") (lowAll x) = false)
    (hmeth : hasSub (jstr "analysis method:") (lowAll x) = false)
    (hblank : hasSub (jstr "\n\n") (lowAll x) = false) :
    pipe x = trimU x := by
  have h126 : ∀ u ∈ x, u ≤ 126 := fun u hu => plain_le (hplain u hu)
  have e1 : stripFixed x = x := stripFixed_id (fun u hu => plain_not_fixed (hplain u hu))
  have e2 : stripRanges x = x := stripRanges_id h126
  have hb1 : hasSub (jstr "ai root cause analysis") (lowAll x) = false := by
    rw [Bool.eq_false_iff] at hband ⊢
    intro h2
    exact hband (hasSub_trans (by decide) h2)
  have eB1 : replaceAll reBanner1 tmplNl x = x := replaceAll_id_word (by decide) hb1
  have eB2 : replaceAll reBanner2 tmplNl x = x := replaceAll_id_word (by decide) hband
  have hdash3 : hasSub (jstr "---") (lowAll x) = false :=
    plain_no_excl_word hplain (c := 45) (w := [45, 45]) (by decide)
  have hdash2 : hasSub (jstr "--") (lowAll x) = false :=
    plain_no_excl_word hplain (c := 45) (w := [45]) (by decide)
  have eT1 : replaceAll reTrailer1 tmplEmpty x = x := replaceAll_id_word (by decide) hdash3
  have eT2 : replaceAll reTrailer2 tmplEmpty x = x := replaceAll_id_word (by decide) hmeth
  have eH1 : replaceAll reHr1 tmplEmpty x = x := replaceAll_id_word (by decide) hdash2
  have eH2 : replaceAll reHr2 tmplEmpty x = x := replaceAll_id_word (by decide) hdash3
  have eBo : replaceAll reBold tmplStrong x = x := replaceAll_id_word (by decide)
    (plain_no_excl_word hplain (c := 42) (w := [42]) (by decide))
  have eHe : replaceAll reHeading tmplStrong x = x := replaceAll_id_word (by decide)
    (plain_no_excl_word hplain (c := 35) (w := []) (by decide))
  have hUlSet : ∀ u ∈ x, toLow u ∉ ([45, 42, 43] : List Nat) := by
    intro u hu hm
    have hp := hplain u hu
    rcases List.mem_cons.mp hm with h | h
    · exact plain_toLow_not_excl hp (by decide) h
    rcases List.mem_cons.mp h with h | h
    · exact plain_toLow_not_excl hp (by decide) h
    rcases List.mem_cons.mp h with h | h
    · exact plain_toLow_not_excl hp (by decide) h
    · cases h
  have eUl : replaceAll reUl tmplUl x = x := replaceAll_id_set (by decide) hUlSet
  have eOl : replaceAll reOl tmplOl x = x := replaceAll_id_word (by decide)
    (plain_no_excl_word hplain (c := 46) (w := []) (by decide))
  have eCo : replaceAll reCode tmplG1 x = x := replaceAll_id_word (by decide)
    (plain_no_excl_word hplain (c := 96) (w := []) (by decide))
  have eLi : replaceAll reLink tmplG1 x = x := replaceAll_id_word (by decide)
    (plain_no_excl_word hplain (c := 91) (w := []) (by decide))
  have eColl : replaceAll reCollapse tmplNN x = x := replaceAll_id_word (by decide) hblank
  unfold pipe pipeTail
  rw [e1, e2, eB1, eB2, eT1, eT2, eH1, eH2, eBo, eHe, eUl, eOl, eCo, eLi, eColl]

theorem plain_render {x : JStr}
    (hplain : ∀ u ∈ x, plainUnit u)
    (hband : hasSub (jstr "root cause analysis") (lowAll x) = false)
    (hmeth : hasSub (jstr "analysis method:") (lowAll x) = false)
    (hconf : hasSub (jstr "confidence level") (lowAll x) = false)
    (hblank : hasSub (jstr "\n\n") (lowAll x) = false)
    (hne : trimU x ≠ []) :
    renderConf x = none ∧ renderBlocks x = [wrapP (trimU x)] := by
  have hpipe := pipe_plain_eq hplain hband hmeth hblank
  have hconfT : hasSub (jstr "confidence level") (lowAll (trimU x)) = false := by
    rw [Bool.eq_false_iff] at hconf ⊢
    intro h2
    exact hconf (hasSub_low_of_trim h2)
  have hjs : jsMatch reConf (trimU x) = none :=
    findGo_none (fun i => matchAt_none_of_word (by decide) hconfT i) _ _
  constructor
  · unfold renderConf
    rw [hpipe]
    unfold confidenceOf
    rw [hjs]
  · unfold renderBlocks
    rw [hpipe]
    have hafter : afterConf (trimU x) = trimU x := by
      unfold afterConf
      rw [hjs]
    rw [hafter]
    have hb10x : hasSub ([10, 10] : JStr) x = false := by
      rw [Bool.eq_false_iff] at hblank ⊢
      intro h2
      exact hblank (hasSub_map (f := toLow) h2)
    have hb10t : hasSub ([10, 10] : JStr) (trimU x) = false := by
      rw [Bool.eq_false_iff] at hb10x ⊢
      intro h2
      exact hb10x (hasSub_of_trim h2)
    have hsplit := splitNN_single (trimU x) hb10t
    have h60 : (60 : Nat) ∉ trimU x := fun hm =>
      plain_mem_not_excl hplain (c := 60) (by decide) (mem_trimU hm)
    have hmb : mb2Tag = 60 :: jstr "p class=\"mb-2\">" := by decide
    have hpre : isPre mb2Tag (trimU x) = false := by
      rw [Bool.eq_false_iff]
      intro h2
      rw [hmb] at h2
      exact h60 (isPre_head h2)
    have hsub2 : hasSub mb2Tag (trimU x) = false := by
      rw [Bool.eq_false_iff]
      intro h2
      rw [hmb] at h2
      exact h60 (hasSub_mem_head h2)
    have hcand : candidates (trimU x) = [trimU x] := by
      unfold candidates
      rw [hsplit, List.map_cons, List.map_nil, trimU_trimU]
      rw [List.filter_cons, List.filter_nil]
      rw [if_pos (by simp [hne])]
      rw [List.filter_cons, List.filter_nil]
      rw [if_pos (by rw [hpre]; rfl)]
    unfold blocksOf
    rw [hcand, List.map_cons, List.map_nil]
    rw [if_neg (by rw [hsub2]; exact Bool.false_ne_true)]


theorem trim_cons_ws {w : Nat} {p : JStr} (h : isWS w = true) : trimU (w :: p) = trimU p := by
  unfold trimU
  rw [List.dropWhile_cons, if_pos h]

theorem trimFilter_cons (p : JStr) (ps : List JStr) :
    trimFilter (p :: ps) =
      if (trimU p).isEmpty then trimFilter ps else trimU p :: trimFilter ps := by
  unfold trimFilter
  rw [List.map_cons, List.filter_cons]
  by_cases he : (trimU p).isEmpty = true
  · rw [if_pos he, if_neg]
    rw [he]
    exact Bool.false_ne_true
  · have hf : (trimU p).isEmpty = false := Bool.eq_false_iff.mpr he
    have hb : (!(trimU p).isEmpty) = true := by
      rw [hf]
      rfl
    rw [if_pos hb, if_neg he]

theorem segNN_dropNl : ∀ (l : JStr), segNN (dropNl l) = segNN l := by
  intro l
  induction l using splitNN.induct with
  | case1 => rfl
  | case2 rest ih =>
    have h1 : segNN (10 :: 10 :: rest) = segNN rest := by
      unfold segNN
      rw [show splitNN (10 :: 10 :: rest) = [] :: splitNN rest from rfl]
      rw [show trimFilter ([] :: splitNN rest) = trimFilter (splitNN rest) by
        rw [trimFilter_cons, if_pos (show (trimU ([] : JStr)).isEmpty = true by decide)]]
    have h2 : dropNl (10 :: 10 :: rest) = dropNl rest := rfl
    rw [h2, h1]
    exact ih
  | case3 u rest hg hnil ih => exact (splitNN_ne_nil rest hnil).elim
  | case4 u rest hg p ps hps ih =>
    by_cases hu : u = 10
    · subst hu
      have hrg : ∀ v r2, rest = v :: r2 → v ≠ 10 := by
        intro v r2 hr hv
        exact hg r2 rfl (by rw [hr, hv])
      have hd : dropNl (10 :: rest) = dropNl rest := rfl
      rw [hd]
      have hdr : dropNl rest = rest := by
        cases rest with
        | nil => rfl
        | cons v r2 =>
          unfold dropNl
          rw [List.dropWhile_cons, if_neg]
          rw [beq_eq_false_iff_ne.mpr (hrg v r2 rfl)]
          exact Bool.false_ne_true
      rw [hdr]
      unfold segNN
      rw [splitNN_cons_eq hg hps, hps]
      rw [trimFilter_cons, trimFilter_cons]
      rw [trim_cons_ws (by decide)]
    · have hd : dropNl (u :: rest) = u :: rest := by
        unfold dropNl
        rw [List.dropWhile_cons, if_neg]
        rw [beq_eq_false_iff_ne.mpr hu]
        exact Bool.false_ne_true
      rw [hd]

theorem crGo_cons (k u : Nat) (r : JStr) :
    crGo k (u :: r) =
      if u = 10 then (if 2 ≤ k then crGo k r else 10 :: crGo (k + 1) r)
      else u :: crGo 0 r := rfl

theorem crGo2_eq (l : JStr) : crGo 2 l = crGo 0 (dropNl l) := by
  induction l with
  | nil => rfl
  | cons u r ih =>
    by_cases hu : u = 10
    · subst hu
      have h1 : crGo 2 (10 :: r) = crGo 2 r := by
        rw [crGo_cons, if_pos rfl, if_pos (by omega)]
      have h2 : dropNl (10 :: r) = dropNl r := rfl
      rw [h1, h2]
      exact ih
    · have h1 : crGo 2 (u :: r) = u :: crGo 0 r := by
        rw [crGo_cons, if_neg hu]
      have h2 : dropNl (u :: r) = u :: r := by
        unfold dropNl
        rw [List.dropWhile_cons, if_neg]
        rw [beq_eq_false_iff_ne.mpr hu]
        exact Bool.false_ne_true
      have h3 : crGo 0 (u :: r) = u :: crGo 0 r := by
        rw [crGo_cons, if_neg hu]
      rw [h1, h2, h3]

theorem collapseRuns_cons {u : Nat} {rest : JStr}
    (hg : ∀ r2 : List Nat, u = 10 → rest = 10 :: r2 → False) :
    collapseRuns (u :: rest) = u :: collapseRuns rest := by
  unfold collapseRuns
  by_cases hu : u = 10
  · subst hu
    have h1 : crGo 0 (10 :: rest) = 10 :: crGo 1 rest := by
      rw [crGo_cons, if_pos rfl, if_neg (by omega)]
    rw [h1]
    congr 1
    cases rest with
    | nil => rfl
    | cons v r2 =>
      have hv : v ≠ 10 := fun hv => hg r2 rfl (by rw [hv])
      show crGo 1 (v :: r2) = crGo 0 (v :: r2)
      rw [crGo_cons, crGo_cons, if_neg hv, if_neg hv]
  · show crGo 0 (u :: rest) = u :: crGo 0 rest
    rw [crGo_cons, if_neg hu]

theorem collapseRuns_head (v : Nat) (r2 : JStr) :
    ∃ rr, collapseRuns (v :: r2) = v :: rr := by
  by_cases hv : v = 10
  · subst hv
    refine ⟨crGo 1 r2, ?_⟩
    unfold collapseRuns
    rw [crGo_cons, if_pos rfl, if_neg (by omega)]
  · refine ⟨crGo 0 r2, ?_⟩
    unfold collapseRuns
    rw [crGo_cons, if_neg hv]

theorem collapseRuns_nlnl (rest : JStr) :
    collapseRuns (10 :: 10 :: rest) = 10 :: 10 :: collapseRuns (dropNl rest) := by
  unfold collapseRuns
  have h1 : crGo 0 (10 :: 10 :: rest) = 10 :: crGo 1 (10 :: rest) := by
    rw [crGo_cons, if_pos rfl, if_neg (by omega)]
  have h2 : crGo 1 (10 :: rest) = 10 :: crGo 2 rest := by
    rw [crGo_cons, if_pos rfl, if_neg (by omega)]
  rw [h1, h2, crGo2_eq]

theorem dropNl_length_le (l : JStr) : (dropNl l).length ≤ l.length := by
  unfold dropNl
  induction l with
  | nil => exact Nat.le_refl _
  | cons a r ih =>
    rw [List.dropWhile_cons]
    by_cases hp : (a == 10) = true
    · rw [if_pos hp]
      exact Nat.le_trans ih (by simp)
    · rw [if_neg hp]

theorem segNN_collapse_aux : ∀ (n : Nat) (t : JStr), t.length ≤ n →
    ∃ p ps ps2, splitNN t = p :: ps ∧ splitNN (collapseRuns t) = p :: ps2 ∧
      trimFilter ps2 = trimFilter ps := by
  intro n
  induction n with
  | zero =>
    intro t hlen
    rw [List.length_eq_zero.mp (Nat.le_zero.mp hlen)]
    exact ⟨[], [], [], rfl, rfl, rfl⟩
  | succ n ih =>
    intro t hlen
    cases t with
    | nil => exact ⟨[], [], [], rfl, rfl, rfl⟩
    | cons u rest =>
      by_cases hnl : ∃ r2, u = 10 ∧ rest = 10 :: r2
      · obtain ⟨r2, rfl, rfl⟩ := hnl
        refine ⟨[], splitNN r2, splitNN (collapseRuns (dropNl r2)), rfl, ?_, ?_⟩
        · rw [collapseRuns_nlnl]
          rfl
        · have hlen2 : (dropNl r2).length ≤ n := by
            have hd := dropNl_length_le r2
            simp at hlen
            omega
          obtain ⟨p3, ps3, ps4, h1, h2, h3⟩ := ih (dropNl r2) hlen2
          have e1 : segNN (collapseRuns (dropNl r2)) = segNN (dropNl r2) := by
            unfold segNN
            rw [h1, h2, trimFilter_cons, trimFilter_cons, h3]
          have e2 := segNN_dropNl r2
          calc trimFilter (splitNN (collapseRuns (dropNl r2)))
              = segNN (collapseRuns (dropNl r2)) := rfl
            _ = segNN (dropNl r2) := e1
            _ = segNN r2 := e2
            _ = trimFilter (splitNN r2) := rfl
      · push_neg at hnl
        have hg : ∀ r2 : List Nat, u = 10 → rest = 10 :: r2 → False := by
          intro r2 hu hr
          exact absurd hr (hnl r2 hu)
        obtain ⟨p, ps, hps⟩ : ∃ p ps, splitNN rest = p :: ps := by
          cases hsp : splitNN rest with
          | nil => exact (splitNN_ne_nil rest hsp).elim
          | cons a as => exact ⟨a, as, rfl⟩
        have hlen2 : rest.length ≤ n := by
          simp at hlen
          omega
        obtain ⟨p2, ps2, ps3, h1, h2, h3⟩ := ih rest hlen2
        rw [hps] at h1
        injection h1 with h1a h1b
        subst h1a
        subst h1b
        have hg2 : ∀ r2 : List Nat, u = 10 → collapseRuns rest = 10 :: r2 → False := by
          intro r2 hu hr
          cases rest with
          | nil =>
            rw [show collapseRuns [] = [] from rfl] at hr
            cases hr
          | cons v vr =>
            obtain ⟨rr, hrr⟩ := collapseRuns_head v vr
            rw [hrr] at hr
            injection hr with hv1 _
            exact hg vr hu (by rw [hv1])
        refine ⟨u :: p, ps, ps3, splitNN_cons_eq hg hps, ?_, h3⟩
        rw [collapseRuns_cons hg]
        exact splitNN_cons_eq hg2 h2

theorem segNN_collapse (t : JStr) : segNN (collapseRuns t) = segNN t := by
  obtain ⟨p, ps, ps2, h1, h2, h3⟩ := segNN_collapse_aux t.length t (Nat.le_refl _)
  unfold segNN
  rw [h1, h2, trimFilter_cons, trimFilter_cons, h3]

theorem candidates_collapse (t : JStr) : candidates (collapseRuns t) = candidates t := by
  have h := segNN_collapse t
  unfold segNN trimFilter at h
  unfold candidates
  rw [h]

theorem trimU_eq_self {l : JStr}
    (h1 : ∀ u, l.head? = some u → isWS u = false)
    (h2 : ∀ u, l.reverse.head? = some u → isWS u = false) : trimU l = l := by
  unfold trimU trimEnd
  rw [dropWhile_of_head h1, dropWhile_of_head h2, List.reverse_reverse]

theorem trimU_wrapP (p : JStr) : trimU (wrapP p) = wrapP p := by
  apply trimU_eq_self
  · intro u hu
    have he : wrapP p = 60 :: (jstr "p class=\"mb-3\">" ++ p ++ jstr "</p>") := by
      unfold wrapP
      rfl
    rw [he] at hu
    injection hu with h3
    subst h3
    decide
  · intro u hu
    unfold wrapP at hu
    rw [List.reverse_append] at hu
    have hrev : (jstr "</p>").reverse = 62 :: jstr "p/<" := by decide
    rw [hrev, List.cons_append] at hu
    injection hu with h3
    subst h3
    decide

theorem non_ai_raw (c : Comment)
    (h : c.author_info = none ∨
      ∀ a, c.author_info = some a → a.system_user_type ≠ some (jstr "ai_assistant")) :
    displayComment c = .rawText c.content := by
  unfold displayComment
  rw [if_neg]
  intro hai
  unfold isAIAssistantComment at hai
  rcases h with h | h
  · rw [h] at hai
    cases hai
  · cases hc : c.author_info with
    | none =>
      rw [hc] at hai
      cases hai
    | some a =>
      rw [hc] at hai
      rw [beq_iff_eq] at hai
      exact h a hc hai

theorem blocksOf_nonempty {t b : JStr} (hb : b ∈ blocksOf t) : trimU b = b ∧ b ≠ [] := by
  unfold blocksOf at hb
  rw [List.mem_map] at hb
  obtain ⟨p, hp, rfl⟩ := hb
  unfold candidates at hp
  have hp1 := List.mem_of_mem_filter hp
  have hfil1 := List.of_mem_filter hp1
  have hpne : p ≠ [] := by simpa using hfil1
  have hp2 := List.mem_of_mem_filter hp1
  rw [List.mem_map] at hp2
  obtain ⟨q, hq, rfl⟩ := hp2
  by_cases hs : hasSub mb2Tag (trimU q) = true
  · rw [if_pos hs]
    exact ⟨trimU_trimU q, hpne⟩
  · rw [if_neg hs]
    refine ⟨trimU_wrapP _, ?_⟩
    intro hcon
    unfold wrapP at hcon
    rw [List.append_eq_nil, List.append_eq_nil] at hcon
    exact absurd hcon.1.1 (by decide)

theorem renderBlocks_no_bad {raw : JStr} {b : JStr} (hb : b ∈ renderBlocks raw) {u : Nat}
    (hu : u ∈ b) : ¬ badUnit u := by
  have hins : ∀ x ∈ insertedUnits, ¬ badUnit x := by decide
  unfold renderBlocks at hb
  rcases mem_blocksOf hb hu with h | h
  · rcases mem_afterConf h with h2 | h2
    · unfold pipe at h2
      rcases mem_pipeTail h2 with h3 | h3
      · intro hbad
        rcases hbad with hb1 | hb2
        · exact stripFixed_not_fixed (mem_stripRanges h3) hb1
        · exact stripRanges_no_bmp h3 hb2
      · exact hins u h3
    · exact hins u h2
  · exact hins u h

set_option maxRecDepth 100000

/-- Claim C1: the spec states the list-fidelity input yields four ListItem blocks in order; the code instead discards every candidate paragraph that starts with a list-item tag, so this very input renders to an empty block list — no list line survives. By contrast a list line preceded by prose in the same paragraph does render, which shows the dropping filter is a slip rather than intent. The theorem evaluates the renderer at the failing input and at the contrasting one. -/
theorem claim1_list_lines_dropped :
    renderBlocks (jstr "- first\n- second\n\n1. one\n2. two") = [] ∧
    renderBlocks (jstr "Intro line\n- item one\n\nTail") =
      [jstr "Intro line\n<p class=\"mb-2\">• item one</p>", wrapP (jstr "Tail")] := by
  refine ⟨by decide, by decide⟩

/-- Claim C2 counterexample: the second line matches the confidence form on its own, yet after rendering the two-confidence-line input only the body paragraph remains and the later line's text appears in no block, refuting the claim that later matching lines are left as ordinary content. -/
theorem claim2_counterexample :
    jsMatch reConf (jstr "Confidence Level: Low") ≠ none ∧
    renderBlocks (jstr "Confidence Level: High\n\nConfidence Level: Low\n\nBody") =
      [wrapP (jstr "Body")] ∧
    hasSub (jstr "Low")
      ((renderBlocks (jstr "Confidence Level: High\n\nConfidence Level: Low\n\nBody")).flatten)
      = false := by
  refine ⟨by decide, by decide, by decide⟩

/-- Claim C2 amended: only the first matching line supplies the confidence value, and the removal pass is global rather than first-only, so later matching lines are not in general left as ordinary content: a later matching line separated by a blank line is removed and appears in no block. A matching line immediately following a removed one, however, does survive into the blocks, because the preceding removal consumes the newline that its own start-or-newline anchor needs when the scan resumes. The theorem settles both regimes. -/
theorem claim2_amended :
    renderConf (jstr "Confidence Level: High\n\nConfidence Level: Low\n\nBody") =
      some ⟨jstr "High", none⟩ ∧
    renderBlocks (jstr "Confidence Level: High\n\nConfidence Level: Low\n\nBody") =
      [wrapP (jstr "Body")] ∧
    renderConf (jstr "Confidence Level: A\nConfidence Level: B\n\nBody") =
      some ⟨jstr "A", none⟩ ∧
    renderBlocks (jstr "Confidence Level: A\nConfidence Level: B\n\nBody") =
      [wrapP (jstr "Confidence Level: B"), wrapP (jstr "Body")] := by
  refine ⟨by decide, by decide, by decide, by decide⟩

/-- Claim C3 counterexample: a non-empty input consisting of a single list line produces no blocks at all, yet the output is the empty block list rather than the claimed fallback of one paragraph holding the escaped raw text — no escape fallback exists in the code. -/
theorem claim3_counterexample :
    jstr "- a" ≠ [] ∧ renderConf (jstr "- a") = none ∧ renderBlocks (jstr "- a") = [] := by
  refine ⟨by decide, by decide, by decide⟩

/-- Claim C3 amended: render is a total function that never throws; the empty string yields null confidence and an empty block list, and when segmentation leaves no candidate the result is simply an empty block list with no fallback paragraph. -/
theorem claim3_amended :
    renderConf (jstr "") = none ∧ renderBlocks (jstr "") = [] ∧
    renderBlocks (jstr "- a") = [] := by
  refine ⟨by decide, by decide, by decide⟩

/-- Claim C4 counterexample: the heavy large circle U+2B55 is an emoji code point, yet it lies outside the fixed class and the six handled ranges, so it survives unchanged into the output html. -/
theorem claim4_counterexample :
    jstr "⭕" = [0x2B55] ∧ emojiPict 0x2B55 = true ∧
    renderBlocks (jstr "⭕") = [wrapP (jstr "⭕")] ∧
    0x2B55 ∈ (renderBlocks (jstr "⭕")).flatten := by
  refine ⟨by decide, by decide, by decide, by decide⟩

/-- Claim C4 amended: pictograph removal is total exactly for the fixed class and the handled ranges — no code unit of the fixed class and no basic-plane code point of the two handled basic-plane ranges survives into any block's html, and no astral code point of the handled ranges can survive because its high surrogate is itself in the fixed class; emoji outside these sets pass through. -/
theorem claim4_amended :
    ∀ (raw : JStr), ∀ b ∈ renderBlocks raw, ∀ u ∈ b, ¬ badUnit u :=
  fun _ b hb u hu => renderBlocks_no_bad hb hu

/-- Witness for the amended claim C4 at a concrete input. -/
theorem claim4_witness : ¬ badUnit 104 :=
  claim4_amended (jstr "hi") (wrapP (jstr "hi")) (by decide) 104 (by decide)

/-- Claim C5: the confidence line with a percentage yields level High with the percent suffix stripped from the captured percentage, the body paragraph alone survives, and the percentage-free form yields level Medium with a null percentage. -/
theorem claim5_confidence_extraction :
    renderConf (jstr "Confidence Level: High (82%)\n\nBody text") =
      some ⟨jstr "High", some (jstr "82%")⟩ ∧
    (renderConf (jstr "Confidence Level: High (82%)\n\nBody text")).map Confidence.pct =
      some (some (jstr "82")) ∧
    renderBlocks (jstr "Confidence Level: High (82%)\n\nBody text") =
      [wrapP (jstr "Body text")] ∧
    renderConf (jstr "Confidence Level: Medium\n\nBody") = some ⟨jstr "Medium", none⟩ ∧
    renderBlocks (jstr "Confidence Level: Medium\n\nBody") = [wrapP (jstr "Body")] := by
  refine ⟨by decide, by decide, by decide, by decide, by decide⟩

/-- Claim C6: the banner, horizontal rule and analysis-method trailer are stripped completely — the output is exactly one paragraph holding Real content, and no confidence is extracted. -/
theorem claim6_banner_trailer :
    renderBlocks
        (jstr "**AI Root Cause Analysis**\n\nReal content\n\n---\nAnalysis method: pattern-based")
      = [wrapP (jstr "Real content")] ∧
    renderConf
        (jstr "**AI Root Cause Analysis**\n\nReal content\n\n---\nAnalysis method: pattern-based")
      = none := by
  refine ⟨by decide, by decide⟩

/-- Claim C7 counterexample: an input of two plain letters separated by a blank line contains no markup, pictographs, banner lines or confidence line, yet render yields two paragraphs rather than a single paragraph holding the trimmed input. -/
theorem claim7_counterexample :
    renderConf (jstr "A\n\nB") = none ∧
    renderBlocks (jstr "A\n\nB") = [wrapP (jstr "A"), wrapP (jstr "B")] ∧
    renderBlocks (jstr "A\n\nB") ≠ [wrapP (trimU (jstr "A\n\nB"))] := by
  refine ⟨by decide, by decide, by decide⟩

/-- Claim C7 amended: for every input of plain units (no markup trigger characters), with no banner, trailer or confidence phrase, no blank-line separator, and a non-empty trim, render yields null confidence and a single paragraph whose html is the input trimmed. The original claim fails on inputs with blank lines or an empty trim. -/
theorem claim7_amended {x : JStr}
    (hplain : ∀ u ∈ x, plainUnit u)
    (hband : hasSub (jstr "root cause analysis") (lowAll x) = false)
    (hmeth : hasSub (jstr "analysis method:") (lowAll x) = false)
    (hconf : hasSub (jstr "confidence level") (lowAll x) = false)
    (hblank : hasSub (jstr "\n\n") (lowAll x) = false)
    (hne : trimU x ≠ []) :
    renderConf x = none ∧ renderBlocks x = [wrapP (trimU x)] :=
  plain_render hplain hband hmeth hconf hblank hne

/-- Witness for the amended claim C7 at a concrete plain input. -/
theorem claim7_witness :
    renderConf (jstr "Hello world") = none ∧
      renderBlocks (jstr "Hello world") = [wrapP (trimU (jstr "Hello world"))] :=
  claim7_amended (by decide) (by decide) (by decide) (by decide) (by decide) (by decide)

/-- Claim C8: adjacent blank lines collapse to a single block boundary — collapsing newline runs in the text changes no candidate of the segmentation — and no empty block is ever produced: every rendered block equals its own trim and is non-empty. -/
theorem claim8_blank_collapse :
    (∀ t : JStr, candidates (collapseRuns t) = candidates t) ∧
    (∀ raw : JStr, ∀ b ∈ renderBlocks raw, trimU b = b ∧ b ≠ []) :=
  ⟨fun t => candidates_collapse t,
   fun raw b hb => blocksOf_nonempty (t := afterConf (pipe raw)) hb⟩

/-- Witness for claim C8 at concrete inputs. -/
theorem claim8_witness :
    candidates (collapseRuns (jstr "a\n\n\n\nb")) = candidates (jstr "a\n\n\n\nb") ∧
      (trimU (wrapP (jstr "hi")) = wrapP (jstr "hi") ∧ wrapP (jstr "hi") ≠ []) :=
  ⟨claim8_blank_collapse.1 (jstr "a\n\n\n\nb"),
   claim8_blank_collapse.2 (jstr "hi") (wrapP (jstr "hi")) (by decide)⟩

/-- Claim C9: a comment not flagged as AI authored — author info absent, or its system user type different from the AI assistant marker — never goes through the renderer and is displayed as its raw content unchanged. -/
theorem claim9_non_ai_bypass (c : Comment)
    (h : c.author_info = none ∨
      ∀ a, c.author_info = some a → a.system_user_type ≠ some (jstr "ai_assistant")) :
    displayComment c = .rawText c.content :=
  non_ai_raw c h

/-- Witness for claim C9 at a concrete comment without author info. -/
theorem claim9_witness :
    displayComment ⟨none, jstr "plain comment"⟩ = .rawText (jstr "plain comment") :=
  claim9_non_ai_bypass ⟨none, jstr "plain comment"⟩ (Or.inl rfl)

/-- Claim C10: the renderer performs no HTML escaping or sanitization — a script tag in the input survives verbatim into the block html the page injects as raw HTML, and in general every code unit of every output block comes either from the input or from the fixed markup templates, so no escape sequences are ever introduced. -/
theorem claim10_no_escaping :
    renderBlocks (jstr "<script>alert(1)</script>") =
      [wrapP (jstr "<script>alert(1)</script>")] ∧
    (∀ raw : JStr, ∀ b ∈ renderBlocks raw, ∀ u ∈ b, u ∈ raw ∨ u ∈ insertedUnits) :=
  ⟨by decide, fun _ b hb u hu => renderBlocks_units hb hu⟩

/-- Witness for claim C10 at a concrete input. -/
theorem claim10_witness : 104 ∈ jstr "hi" ∨ 104 ∈ insertedUnits :=
  claim10_no_escaping.2 (jstr "hi") (wrapP (jstr "hi")) (by decide) 104 (by decide)

end SAR
